import Mathlib

/-!
# Verification of the OpenPNM phase / transport-solver core

A shallow embedding of the repository's `GenericPhase` object
(`src/OpenPNM/Phases/__GenericPhase__.py`), of the spec's property
resolver, and of the spec's generic linear transport algorithm and its
advection-diffusion (Dispersion) variant, together with proofs of the
frozen claims about them.

Numeric arrays are embedded as `List ℚ` (exact rationals standing for
the floating point arrays of the code); property stores as association
lists from string keys to arrays.
-/

namespace OpenPNM

/-- A numeric data array (one entry per pore or per throat). -/
abbrev Arr := List ℚ

/-- A property store: an association list from qualified string keys
(`pore.x` / `throat.x`) to arrays.  Modelled from the spec: the Property
Store of §3 is "a mapping from a qualified key to a fixed-length numeric
array"; the base `Core` dictionary class is not under `src/`. -/
abbrev Store := List (String × Arr)

/-- First binding of a key in a store (`dict.__getitem__`). -/
def Store.lookup (s : Store) (k : String) : Option Arr :=
  match s with
  | [] => none
  | (k', v) :: rest => if k' = k then some v else Store.lookup rest k

/-- Key membership test (`key in obj.keys()`). -/
def Store.hasKey (s : Store) (k : String) : Bool :=
  match s with
  | [] => false
  | (k', _) :: rest => if k' = k then true else Store.hasKey rest k

/-- Store update (`dict.__setitem__`): the new binding replaces any
previous binding of the same key. -/
def Store.insert (s : Store) (k : String) (v : Arr) : Store :=
  (k, v) :: s.filter (fun kv => kv.1 ≠ k)

/-- A per-region physical-model provider (a Physics object): its own
property store, scoped to the subsets of pores and throats it owns.
The `pores` / `throats` lists are the global ids of the owned elements;
a stored array holds one value per owned element, in the same order. -/
structure Physics where
  store : Store
  pores : List ℕ
  throats : List ℕ
deriving DecidableEq

/-- The data of a phase object: a name, its own property store, the
ordered list of associated Physics providers (registration order), and
the pore/throat counts of the full network it is attached to.
Component ("ficticious") phases carry the same data, so both the mixture
phase and its components are values of this type. -/
structure PhaseCore where
  name : String
  store : Store
  physics : List Physics
  Np : ℕ
  Nt : ℕ
deriving DecidableEq

/-- Scatter `vals` into `acc` at the global positions `ids`
(numpy fancy-index assignment `out[ids] = vals`); when an id occurs
twice the later occurrence wins, and surplus ids/values are dropped
(`List.zip` truncates). -/
def scatter (acc : Arr) (ids : List ℕ) (vals : Arr) : Arr :=
  (ids.zip vals).foldl (fun a iv => a.set iv.1 iv.2) acc

/-- Modelled from the spec: `Core._interleave_data` is not under `src/`.
Spec §4.1: iterate the constituent providers in registration order; for
each provider read `key` from the provider's own store, failing with
`MissingProperty` (here: `none`) when absent; write the provider's
values into the positions of the full-length output array given by the
provider's owned ids; on overlap the later provider wins; gaps keep the
zero sentinel. `own` selects the relevant owned-id list (pores or
throats) of a provider, `n` the corresponding full count. -/
def interleaveGo (own : Physics → List ℕ) (key : String) :
    List Physics → Arr → Option Arr
  | [], acc => some acc
  | phys :: rest, acc =>
    match phys.store.lookup key with
    | some vals => interleaveGo own key rest (scatter acc (own phys) vals)
    | none => none

/-- The resolver of spec §4.1 (see `interleaveGo`): start from the
zero-filled full-length array and fold the providers in registration
order. -/
def interleave_data (n : ℕ) (own : Physics → List ℕ) (key : String)
    (sources : List Physics) : Option Arr :=
  interleaveGo own key sources (List.replicate n 0)

/-- Owned-id selector for a key: keys qualified `throat.` live on the
throat domain, all others on the pore domain. -/
def ownOf (key : String) (phys : Physics) : List ℕ :=
  if key.startsWith "throat." then phys.throats else phys.pores

/-- Full element count for a key's domain. -/
def countOf (key : String) (p : PhaseCore) : ℕ :=
  if key.startsWith "throat." then p.Nt else p.Np

/-- `GenericPhase.__getitem__` (src lines 58-63): when `key` is absent
from the phase's own store the data is constructed from the associated
Physics objects via `_interleave_data`; otherwise the locally stored
array is returned. -/
def PhaseCore.getItem (p : PhaseCore) (key : String) : Option Arr :=
  if p.store.hasKey key then p.store.lookup key
  else interleave_data (countOf key p) (ownOf key) key p.physics

/-- State-passing form of `__getitem__`: the source performs no store
write anywhere in the method body, so the embedding returns the phase
unchanged next to the value. -/
def PhaseCore.getItemS (p : PhaseCore) (key : String) :
    Option Arr × PhaseCore :=
  (p.getItem key, p)

/-- `GenericPhase.__setitem__` (src lines 51-56): when `prop` is already
defined on at least one associated Physics object the write is dropped
(the method logs an error and returns); otherwise the base store update
runs. -/
def PhaseCore.setItem (p : PhaseCore) (prop : String) (value : Arr) :
    PhaseCore :=
  if p.physics.any (fun phys => phys.store.hasKey prop) then p
  else { p with store := p.store.insert prop value }

/-- Names of the phases associated with an object (`self.phases()`;
the `Core.phases` method is not under `src/`; it reports the names of
the registered component phases). -/
def phaseNames (comps : List PhaseCore) : List String :=
  comps.map (fun c => c.name)

/-- `GenericPhase.set_component` (src lines 65-87), acting on the
`_phases` component list.  Python's `list.remove` raises `ValueError`
when the element is absent; the embedding returns `Except` to carry
that exception.  Any other outcome, including the logged-error

branches, returns the (possibly updated) list normally. -/
def set_component (comps : List PhaseCore) (phase : PhaseCore)
    (mode : String) : Except String (List PhaseCore) :=
  if mode = "add" then
    if phase.name ∈ phaseNames comps then .ok comps
    else .ok (comps ++ [phase])
  else if mode = "remove" then
    if phase.name ∈ phaseNames comps then
      if phase ∈ comps then .ok (comps.erase phase)
      else .error "ValueError"
    else .ok comps
  else .ok comps

/-- Elementwise array addition with numpy's 1-D broadcasting: equal
lengths add elementwise, a length-one operand on either side is
broadcast against the other (so the result takes the longer length),
and any other length mismatch is undefined (`none`, numpy raises). -/
def addBroadcast (a b : Arr) : Option Arr :=
  if b.length = a.length then some ((a.zip b).map (fun q => q.1 + q.2))
  else if b.length = 1 then some (a.map (fun q => q + b.headD 0))
  else if a.length = 1 then some (b.map (fun q => a.headD 0 + q))
  else none

/-- `GenericPhase.check_mixture_health` (src lines 97-106): start from
`sp.zeros((self.Np,))`, and for each registered component phase try to
add its `pore.mole_fraction` array (resolved through the component's
own `__getitem__`, hence possibly interleaved from its Physics); any
exception inside the `try` block — a failed lookup or a shape mismatch
in the addition — is swallowed and the component contributes nothing. -/
def mixStep (acc : Arr) (comp : PhaseCore) : Arr :=
  match comp.getItem "pore.mole_fraction" with
  | some arr =>
    match addBroadcast acc arr with
    | some acc' => acc'
    | none => acc
  | none => acc

/-- The loop of `check_mixture_health`: fold `mixStep` over the
components, starting from the zero array of length `Np`. -/
def check_mixture_health (np : ℕ) (comps : List PhaseCore) : Arr :=
  comps.foldl mixStep (List.replicate np 0)

/-! ## Linear transport algorithm

The `LinearSolver` base class, its `run`, `_calc_eff_prop`, and the
`Dispersion` algorithm are not under `src/`; they are modelled from the
spec (§4.2, §4.3).  Matrices are dense lists of rows over ℚ. -/

/-- A vector. -/
abbrev Vec := List ℚ

/-- A dense matrix as a list of rows. -/
abbrev Mat := List Vec

/-- Dot product (truncating at the shorter list). -/
def dot : Vec → Vec → ℚ
  | a :: as, b :: bs => a * b + dot as bs
  | _, _ => 0

/-- Matrix-vector product, row by row. -/
def matVec (A : Mat) (x : Vec) : Vec :=
  A.map (fun r => dot r x)

/-- Scale a vector. -/
def scaleVec (c : ℚ) (v : Vec) : Vec :=
  v.map (fun q => c * q)

/-- Scale a matrix. -/
def scaleMat (c : ℚ) (A : Mat) : Mat :=
  A.map (scaleVec c)

/-- The n×n zero matrix. -/
def zeroMat (n : ℕ) : Mat :=
  List.replicate n (List.replicate n 0)

/-- Add `x` to entry (i,j) of `A` (out-of-range indices leave `A`
unchanged; the spec's invariant keeps all indices in range). -/
def addAt (A : Mat) (i j : ℕ) (x : ℚ) : Mat :=
  match A[i]? with
  | some r => A.set i (r.set j (r.getD j 0 + x))
  | none => A

/-- Modelled from the spec (§4.2 run step 1): each edge (a,b) with
conductance g subtracts g from A[a,b] and A[b,a] and adds g to the two
diagonal entries. -/
def lapStep (A : Mat) (eg : (ℕ × ℕ) × ℚ) : Mat :=
  addAt (addAt (addAt (addAt A eg.1.1 eg.1.2 (-eg.2))
    eg.1.2 eg.1.1 (-eg.2)) eg.1.1 eg.1.1 eg.2) eg.1.2 eg.1.2 eg.2

/-- The conductance-weighted graph-Laplacian system matrix of spec
§4.2 run step 1. -/
def laplacian (np : ℕ) (edges : List (ℕ × ℕ)) (g : Vec) : Mat :=
  (edges.zip g).foldl lapStep (zeroMat np)

/-- Standard basis row of length n with a 1 in column i. -/
def stdRow (n i : ℕ) : Vec :=
  (List.replicate n (0 : ℚ)).set i 1

/-- One pass of spec §4.2 run step 2 over the rows (paired with their
right-hand-side entries), `j` being the index of the first row of the
list: row `i` becomes the standard basis row with rhs `v`; every other
row `j` gets `b[j] -= A[j,i]*v` and `A[j,i] := 0` (for non-neighbours
`A[j,i]` is already 0, so restricting to neighbours, as the spec words
it, computes the same values). -/
def dirichletRows (i : ℕ) (v : ℚ) : ℕ → List (Vec × ℚ) → List (Vec × ℚ)
  | _, [] => []
  | j, rb :: rest =>
    (if j = i then (stdRow rb.1.length i, v)
     else (rb.1.set i 0, rb.2 - rb.1.getD i 0 * v)) ::
      dirichletRows i v (j + 1) rest

/-- Apply one Dirichlet condition (node i, value v) to the system. -/
def applyD (Ab : Mat × Vec) (iv : ℕ × ℚ) : Mat × Vec :=
  let rows := dirichletRows iv.1 iv.2 0 (Ab.1.zip Ab.2)
  (rows.map (fun q => q.1), rows.map (fun q => q.2))

/-- Spec §4.2 run step 2: eliminate every registered Dirichlet
condition, in registration order. -/
def applyDirichletList (Ab : Mat × Vec) (ds : List (ℕ × ℚ)) : Mat × Vec :=
  ds.foldl applyD Ab

/-- Spec §4.2 run step 3: each rate (Neumann) condition adds its value
to the node's right-hand-side entry. -/
def applyRates (b : Vec) (rs : List (ℕ × ℚ)) : Vec :=
  rs.foldl (fun b' ir => b'.set ir.1 (b'.getD ir.1 0 + ir.2)) b

/-- Bring the row with the first nonzero leading coefficient to the
front (pivot search for the elimination). -/
def pivotSwap : List Vec → Option (Vec × List Vec)
  | [] => none
  | r :: rs =>
    if r.headD 0 ≠ 0 then some (r, rs)
    else
      match pivotSwap rs with
      | some (p, rest) => some (p, r :: rest)
      | none => none

/-- Gaussian elimination on augmented rows (each row: n coefficients
followed by the rhs entry), returning the solution vector; `none` when
no nonzero pivot exists (singular system, spec §4.2 run step 5). -/
def gaussAux : ℕ → List Vec → Option Vec
  | 0, _ => some []
  | n + 1, rows =>
    match pivotSwap rows with
    | none => none
    | some (p, rest) =>
      let a := p.headD 0
      let pr := (p.drop 1).map (fun q => q / a)
      let rest2 := rest.map
        (fun r => ((r.drop 1).zip pr).map (fun q => q.1 - r.headD 0 * q.2))
      match gaussAux n rest2 with
      | none => none
      | some xs => some ((pr.getLastD 0 - dot pr.dropLast xs) :: xs)

/-- Solve A x = b by Gaussian elimination with exact rational
arithmetic. -/
def gaussSolve (A : Mat) (b : Vec) : Option Vec :=
  gaussAux A.length ((A.zip b).map (fun rb => rb.1 ++ [rb.2]))

/-- The network graph: pore count and the two incident pore ids of each
throat (spec §3). -/
structure Network where
  Np : ℕ
  conns : List (ℕ × ℕ)
deriving DecidableEq

/-- Algorithm state after `setup` and boundary-condition registration:
the bound network and phase, the conductance and quantity keys, the
registered Dirichlet and rate conditions, and the algorithm's own
store (spec §3, §4.2). -/
structure AlgState where
  net : Network
  phase : PhaseCore
  conductance : String
  quantity : String
  bcValue : List (ℕ × ℚ)
  bcRate : List (ℕ × ℚ)
  store : Store
deriving DecidableEq

/-- Modelled from the spec (§4.2 run): pull the conductance array
through the phase's property resolution, assemble the Laplacian system,
eliminate Dirichlet conditions, add rate conditions, solve, and store
the solution under the quantity key in the algorithm's own store;
`none` when the conductance is missing or the system is singular. -/
def runAlg (s : AlgState) : Option AlgState :=
  match s.phase.getItem s.conductance with
  | none => none
  | some g =>
    let Ab := applyDirichletList (laplacian s.net.Np s.net.conns g,
      List.replicate s.net.Np 0) s.bcValue
    match gaussSolve Ab.1 (applyRates Ab.2 s.bcRate) with
    | none => none
    | some x => some { s with store := s.store.insert s.quantity x }

/-! ## Effective-property post-processing -/

/-- Modelled from the spec (§4.3): the total conductance-weighted flux
crossing the inlet node set, computed from the solved field `x` — each
edge with exactly one end in the inlet set contributes conductance
times the drop from its inlet end to its other end. -/
def inletFlux (edges : List (ℕ × ℕ)) (g : Vec) (inlet : List ℕ)
    (x : Vec) : ℚ :=
  ((edges.zip g).map
    (fun eg =>
      if eg.1.1 ∈ inlet ∧ eg.1.2 ∉ inlet then
        eg.2 * (x.getD eg.1.1 0 - x.getD eg.1.2 0)
      else if eg.1.2 ∈ inlet ∧ eg.1.1 ∉ inlet then
        eg.2 * (x.getD eg.1.2 0 - x.getD eg.1.1 0)
      else 0)).sum

/-- Modelled from the spec (§4.3): `_calc_eff_prop`, the inlet flux
divided by the driving boundary-value difference. -/
def calcEffProp (edges : List (ℕ × ℕ)) (g : Vec) (inlet : List ℕ)
    (x : Vec) (vIn vOut : ℚ) : ℚ :=
  inletFlux edges g inlet x / (vIn - vOut)

/-- `FickianDiffusion.calc_eff_diffusivity` (src lines 27-30): the raw
effective property `_calc_eff_prop()` divided by the fluid's
`pore.molar_density` array (numpy elementwise division of the scalar by
the array); `none` when the fluid lacks the property. -/
def calc_eff_diffusivity (edges : List (ℕ × ℕ)) (g : Vec)
    (inlet : List ℕ) (x : Vec) (vIn vOut : ℚ) (fluid : PhaseCore) :
    Option Arr :=
  (fluid.getItem "pore.molar_density").map
    (fun rho => rho.map (fun r => calcEffProp edges g inlet x vIn vOut / r))

/-! ## Advection-diffusion (Dispersion) variant

Modelled from the spec: the `Dispersion` algorithm itself is not under
`src/` (only its test is).  Spec §4.2 step 4 describes the variant: the
governing system carries, next to the diffusive conductance terms, an
advective term proportional to the already-known convective transport
coefficient of each edge (the bulk-flow rate computed from the supplied
pressure field and hydraulic conductances); an outflow node's equation
states that whatever enters must leave purely by bulk flow, with no
externally imposed value.  The advective flux across an edge is carried
by the upstream node's field value. -/

/-- Bulk-flow rate through edge (a,b), positive from a to b:
hydraulic conductance times the pressure drop. -/
def flowRate (gh : ℚ) (pa pb : ℚ) : ℚ :=
  gh * (pa - pb)

/-- Add the diffusive and upwind advective coefficients of one edge
`((a,b), gd, q)` (diffusive conductance `gd`, bulk-flow rate `q` from
`a` to `b`) to the system matrix: the flux a→b is
`gd*(c_a - c_b) + q * c_upstream`. -/
def dispStep (A : Mat) (e : (ℕ × ℕ) × ℚ × ℚ) : Mat :=
  addAt (addAt (addAt (addAt A
    e.1.1 e.1.1 (e.2.1 + max e.2.2 0))
    e.1.1 e.1.2 (-e.2.1 + min e.2.2 0))
    e.1.2 e.1.2 (e.2.1 + max (-e.2.2) 0))
    e.1.2 e.1.1 (-(e.2.1 + max e.2.2 0))

/-- The advection-diffusion system matrix: fold of `dispStep` over the
edges, each paired with its diffusive conductance and bulk-flow rate. -/
def dispMatrix (np : ℕ) (edges : List (ℕ × ℕ)) (gd gh press : Vec) :
    Mat :=
  ((edges.zip gd).zip gh).foldl
    (fun A e =>
      dispStep A (e.1.1, e.1.2,
        flowRate e.2 (press.getD e.1.1.1 0) (press.getD e.1.1.2 0)))
    (zeroMat np)

/-- Net bulk-flow rate into node `n` (the advective throughput that an
outflow node must discharge). -/
def netInflow (edges : List (ℕ × ℕ)) (gh press : Vec) (n : ℕ) : ℚ :=
  ((edges.zip gh).map
    (fun eg =>
      let q := flowRate eg.2 (press.getD eg.1.1 0) (press.getD eg.1.2 0)
      (if eg.1.2 = n then q else 0) - (if eg.1.1 = n then q else 0))).sum

/-- Spec §4.2 step 4: each outflow node's equation gains the advective
exit term — its net bulk-flow throughput on the diagonal — so that the
balance reads "whatever enters must leave purely by bulk flow". -/
def applyOutflow (A : Mat) (edges : List (ℕ × ℕ)) (gh press : Vec)
    (outflow : List ℕ) : Mat :=
  outflow.foldl (fun A' n => addAt A' n n (netInflow edges gh press n)) A

/-- State of a configured Dispersion algorithm: the network, the
diffusive and hydraulic conductance arrays, the precomputed pressure
field, the registered Dirichlet conditions and outflow nodes. -/
structure DispState where
  net : Network
  gd : Vec
  gh : Vec
  press : Vec
  bcValue : List (ℕ × ℚ)
  outflow : List ℕ
deriving DecidableEq

/-- Modelled from the spec: `Dispersion.run()` — assemble the
advection-diffusion system, add the outflow terms, eliminate the
Dirichlet conditions, and solve. -/
def dispersionRun (s : DispState) : Option Vec :=
  let A0 := applyOutflow
    (dispMatrix s.net.Np s.net.conns s.gd s.gh s.press)
    s.net.conns s.gh s.press s.outflow
  let Ab := applyDirichletList (A0, List.replicate s.net.Np 0) s.bcValue
  gaussSolve Ab.1 Ab.2

/-- The rational standing for a natural count (spelled recursively so
that kernel evaluation reduces). -/
def natQ : ℕ → ℚ
  | 0 => 0
  | n + 1 => natQ n + 1

/-- Arithmetic mean of a list (`numpy.mean`). -/
def meanQ (v : Vec) : ℚ :=
  v.sum / natQ v.length

/-- Values of a field at a list of node ids. -/
def selectAt (x : Vec) (ids : List ℕ) : Vec :=
  ids.map (fun i => x.getD i 0)

/-! ## The 4×3×1 grid fixture of `DispersionTest`

`op.network.Cubic(shape=[4, 3, 1])`: twelve pores, pore `3*i + j` in
x-layer `i` and y-row `j`; seventeen throats (nine in x, eight in y).
`front` is the x = 0 face (pores 0-2), `back` the x = max face (pores
9-11).  Both conductances are the uniform `1e-15` of the test; the
pressure field is the Stokes-flow solution with `back = 1, front = 0`,
linear in x. -/

/-- The fixture's throat connections. -/
def fixtureConns : List (ℕ × ℕ) :=
  [(0, 3), (1, 4), (2, 5), (3, 6), (4, 7), (5, 8), (6, 9), (7, 10),
   (8, 11), (0, 1), (1, 2), (3, 4), (4, 5), (6, 7), (7, 8), (9, 10),
   (10, 11)]

/-- The fixture network. -/
def fixtureNet : Network :=
  { Np := 12, conns := fixtureConns }

/-- The test's uniform conductance value `1e-15`, exactly. -/
def gTest : ℚ :=
  1 / 1000000000000000

/-- The precomputed bulk-flow pressure field (Stokes flow with
Dirichlet 1 on `back`, 0 on `front`): linear in x. -/
def fixturePressure : Vec :=
  [0, 0, 0, 1/3, 1/3, 1/3, 2/3, 2/3, 2/3, 1, 1, 1]

/-- The outflow test's Dispersion state: inlet concentration 2 on the
`back` face, outflow on the `front` face (`test_outflow_BC`). -/
def outflowFixture : DispState :=
  { net := fixtureNet
    gd := List.replicate 17 gTest
    gh := List.replicate 17 gTest
    press := fixturePressure
    bcValue := [(9, 2), (10, 2), (11, 2)]
    outflow := [0, 1, 2] }

/-! ## Pointwise characterization of the property resolver -/

/-- The value written last at position `i` by a sequence of
(index, value) assignments, if any. -/
def lastOcc : List (ℕ × ℚ) → ℕ → Option ℚ
  | [], _ => none
  | p :: rest, i =>
    match lastOcc rest i with
    | some v => some v
    | none => if p.1 = i then some p.2 else none

/-- The (owned ids, values) pair a provider contributes for `key`. -/
def pairOf (own : Physics → List ℕ) (key : String) (phys : Physics) :
    List ℕ × Arr :=
  (own phys, (phys.store.lookup key).getD [])

/-- The value resolution produces at position `i`: each provider's
(owned ids, values) pair overwrites the running value wherever it
covers `i`, the later registration winning; positions no provider
covers keep the zero sentinel. -/
def resolveAt (srcs : List (List ℕ × Arr)) (i : ℕ) : ℚ :=
  srcs.foldl (fun cur s => (lastOcc (s.1.zip s.2) i).getD cur) 0

/-- Replace the store of the provider at position `k` (the caller's
"regeneration" of a provider's derived data between two reads); other
providers, the phase's own store and the counts are untouched. -/
def regeneratePhysics (p : PhaseCore) (k : ℕ) (st : Store) : PhaseCore :=
  match p.physics[k]? with
  | some ph => { p with physics := p.physics.set k { ph with store := st } }
  | none => p

/-- Row-wise relation between an assembled system and its
conductance-scaled counterpart: rows of nodes that already received a
Dirichlet elimination (the `done` predicate) agree exactly, while every
other row and right-hand-side entry of the second system is the
`c`-multiple of the first's. -/
def RowRel (c : ℚ) (done : ℕ → Prop) (P Q : Mat × Vec) : Prop :=
  Q.1.length = P.1.length ∧ Q.2.length = P.2.length ∧
  P.2.length = P.1.length ∧
  ∀ j : ℕ,
    (done j → Q.1[j]? = P.1[j]? ∧ Q.2[j]? = P.2[j]?) ∧
    (¬ done j → Q.1[j]? = (P.1[j]?).map (scaleVec c) ∧
      Q.2[j]? = (P.2[j]?).map (fun q => c * q))

/-! ## Concrete fixtures used by witnesses and counterexamples -/

/-- A provider owning pores 0 and 1 with data for `pore.x`. -/
def w1Phys1 : Physics :=
  { store := [("pore.x", [10, 20])], pores := [0, 1], throats := [] }

/-- A provider owning pores 1 and 2 with data for `pore.x` (overlapping
provider registered later, so it wins on pore 1). -/
def w1Phys2 : Physics :=
  { store := [("pore.x", [30, 40])], pores := [1, 2], throats := [] }

/-- A four-pore phase holding `pore.y` locally and resolving `pore.x`
from its two providers. -/
def w1Phase : PhaseCore :=
  { name := "w1", store := [("pore.y", [1, 2, 3, 4])],
    physics := [w1Phys1, w1Phys2], Np := 4, Nt := 0 }

/-- Regenerated data for `w1Phys1` (new values at pores 0 and 1). -/
def w7Store : Store :=
  [("pore.x", [11, 21])]

/-- A phase whose single provider already defines `pore.vol`. -/
def w8Phase : PhaseCore :=
  { name := "w8", store := [("pore.old", [1, 1])],
    physics := [{ store := [("pore.vol", [5])], pores := [0],
                  throats := [] }],
    Np := 2, Nt := 0 }

/-- Component phases for the `set_component` witness. -/
def w9CompX : PhaseCore :=
  { name := "x", store := [], physics := [], Np := 3, Nt := 2 }

/-- A second, distinct component. -/
def w9CompY : PhaseCore :=
  { name := "y", store := [], physics := [], Np := 3, Nt := 2 }

/-- A component carrying `pore.mole_fraction` in its own store. -/
def w10CompA : PhaseCore :=
  { name := "a", store := [("pore.mole_fraction", [1/4, 1/4, 1/4])],
    physics := [], Np := 3, Nt := 2 }

/-- A component on which the `pore.mole_fraction` lookup raises: the
key is neither local nor on its (empty-stored) provider. -/
def w10CompB : PhaseCore :=
  { name := "b", store := [],
    physics := [{ store := [], pores := [0, 1, 2], throats := [] }],
    Np := 3, Nt := 2 }

/-- A second contributing component. -/
def w10CompC : PhaseCore :=
  { name := "c", store := [("pore.mole_fraction", [1/2, 1/4, 1/8])],
    physics := [], Np := 3, Nt := 2 }

/-- A component attached to a two-pore network (its mole-fraction array
has length 2); nothing ties a component's network to the mixture's, so
a single-pore mixture can hold it. -/
def w10CompD : PhaseCore :=
  { name := "d", store := [("pore.mole_fraction", [1/2, 1/3])],
    physics := [], Np := 2, Nt := 0 }

/-- Two-pore phase carrying a unit conductance on its single throat. -/
def w6Phase : PhaseCore :=
  { name := "w6", store := [("throat.diffusive_conductance", [1])],
    physics := [], Np := 2, Nt := 1 }

/-- Two-pore, one-throat algorithm state with Dirichlet values on both
pores (the determinism witness). -/
def c6State : AlgState :=
  { net := { Np := 2, conns := [(0, 1)] }, phase := w6Phase,
    conductance := "throat.diffusive_conductance",
    quantity := "pore.mole_fraction",
    bcValue := [(0, 0), (1, 1)], bcRate := [], store := [] }

/-- Three-pore chain network 0 - 1 - 2. -/
def chainNet : Network :=
  { Np := 3, conns := [(0, 1), (1, 2)] }

/-- Chain phase exposing a uniform conductance `g` on its two
throats. -/
def chainPhase (g : ℚ) : PhaseCore :=
  { name := "chain", store := [("throat.diffusive_conductance", [g, g])],
    physics := [], Np := 3, Nt := 2 }

/-- Chain algorithm state: Dirichlet 0 and 1 at the two ends and a unit
rate (Neumann) source at the middle pore. -/
def rateState (g : ℚ) : AlgState :=
  { net := chainNet, phase := chainPhase g,
    conductance := "throat.diffusive_conductance",
    quantity := "pore.mole_fraction",
    bcValue := [(0, 0), (2, 1)], bcRate := [(1, 1)], store := [] }

/-- A fluid with unit molar density on the chain. -/
def chainFluid : PhaseCore :=
  { name := "fluid", store := [("pore.molar_density", [1, 1, 1])],
    physics := [], Np := 3, Nt := 2 }

/-- Full effective-property pipeline on the chain with a rate source:
run the transport solve with uniform conductance `g`, then derive the
effective diffusivity with inlet pore 2 and boundary values 1 / 0. -/
def ratePipeline (g : ℚ) : Option Arr :=
  (runAlg (rateState g)).bind (fun s =>
    (s.store.lookup "pore.mole_fraction").bind (fun x =>
      calc_eff_diffusivity chainNet.conns (List.replicate 2 g) [2] x 1 0
        chainFluid))

/-- A fluid with uniform molar density 2 on the chain (the
`calc_eff_diffusivity` witness). -/
def w4Fluid : PhaseCore :=
  { name := "fluid4", store := [("pore.molar_density", [2, 2, 2])],
    physics := [], Np := 3, Nt := 2 }

theorem length_foldl_set (l : List (ℕ × ℚ)) (acc : Arr) :
    (l.foldl (fun a iv => a.set iv.1 iv.2) acc).length = acc.length := by
  induction l generalizing acc with
  | nil => rfl
  | cons p rest ih => rw [List.foldl_cons, ih]; simp

theorem scatter_length (acc : Arr) (ids : List ℕ) (vals : Arr) :
    (scatter acc ids vals).length = acc.length :=
  length_foldl_set _ _

theorem foldl_set_of_lastOcc_none (l : List (ℕ × ℚ)) (acc : Arr)
    (i : ℕ) (h : lastOcc l i = none) :
    (l.foldl (fun a iv => a.set iv.1 iv.2) acc)[i]? = acc[i]? := by
  induction l generalizing acc with
  | nil => rfl
  | cons p rest ih =>
    rw [List.foldl_cons]
    have hr : lastOcc rest i = none := by
      unfold lastOcc at h
      cases hx : lastOcc rest i with
      | none => rfl
      | some v => rw [hx] at h; exact absurd h (by simp)
    have hp : p.1 ≠ i := by
      unfold lastOcc at h
      rw [hr] at h
      intro he
      rw [if_pos he] at h
      exact absurd h (by simp)
    rw [ih _ hr, List.getElem?_set_ne hp]

theorem foldl_set_of_lastOcc_some (l : List (ℕ × ℚ)) (acc : Arr)
    (i : ℕ) (v : ℚ) (hi : i < acc.length) (h : lastOcc l i = some v) :
    (l.foldl (fun a iv => a.set iv.1 iv.2) acc)[i]? = some v := by
  induction l generalizing acc with
  | nil => exact absurd h (by simp [lastOcc])
  | cons p rest ih =>
    rw [List.foldl_cons]
    cases hr : lastOcc rest i with
    | some w =>
      have hw : w = v := by
        unfold lastOcc at h
        rw [hr] at h
        exact Option.some.inj h
      subst hw
      exact ih _ (by simpa using hi) hr
    | none =>
      have hp : p.1 = i ∧ p.2 = v := by
        unfold lastOcc at h
        rw [hr] at h
        by_cases he : p.1 = i
        · rw [if_pos he] at h
          exact ⟨he, Option.some.inj h⟩
        · rw [if_neg he] at h
          exact absurd h (by simp)
      rw [foldl_set_of_lastOcc_none _ _ _ hr, hp.1, hp.2,
        List.getElem?_set_self hi]

theorem scatter_getElem? (acc : Arr) (ids : List ℕ) (vals : Arr)
    (i : ℕ) (hi : i < acc.length) :
    (scatter acc ids vals)[i]? =
      ((lastOcc (ids.zip vals) i).map some).getD acc[i]? := by
  cases h : lastOcc (ids.zip vals) i with
  | none => simpa [h] using foldl_set_of_lastOcc_none (ids.zip vals) acc i h
  | some v => simpa [h] using foldl_set_of_lastOcc_some (ids.zip vals) acc i v hi h

theorem interleaveGo_spec (own : Physics → List ℕ) (key : String)
    (sources : List Physics) (acc : Arr)
    (hall : ∀ phys ∈ sources, (phys.store.lookup key).isSome = true) :
    ∃ arr, interleaveGo own key sources acc = some arr ∧
      arr.length = acc.length ∧
      ∀ i, i < acc.length →
        arr[i]? = some ((sources.map (pairOf own key)).foldl
          (fun cur s => (lastOcc (s.1.zip s.2) i).getD cur) (acc.getD i 0)) := by
  induction sources generalizing acc with
  | nil =>
    refine ⟨acc, rfl, rfl, fun i hi => ?_⟩
    simp [List.getD_eq_getElem?_getD, List.getElem?_eq_getElem hi]
  | cons phys rest ih =>
    obtain ⟨vals, hv⟩ := Option.isSome_iff_exists.mp
      (hall phys (List.mem_cons_self _ _))
    have hrest : ∀ ph ∈ rest, (ph.store.lookup key).isSome = true :=
      fun ph hm => hall ph (List.mem_cons_of_mem _ hm)
    obtain ⟨arr, harr, hlen, hget⟩ := ih (scatter acc (own phys) vals) hrest
    refine ⟨arr, ?_, ?_, fun i hi => ?_⟩
    · unfold interleaveGo
      rw [hv]
      exact harr
    · rw [hlen, scatter_length]
    · rw [List.map_cons, List.foldl_cons]
      have hstep : (scatter acc (own phys) vals).getD i 0 =
          (lastOcc ((pairOf own key phys).1.zip (pairOf own key phys).2) i).getD
            (acc.getD i 0) := by
      -- the scatter step realizes the per-provider overwrite
        rw [List.getD_eq_getElem?_getD,
          scatter_getElem? acc (own phys) vals i hi]
        simp only [pairOf, hv, Option.getD_some]
        cases lastOcc ((own phys).zip vals) i <;>
          simp [List.getD_eq_getElem?_getD]
      rw [← hstep]
      exact hget i (by rwa [scatter_length])

/-- Characterization of the full resolver: when every provider carries
the key, resolution succeeds with a full-length array whose entry at
any position is the last-registered covering provider's value (zero
where no provider covers). -/
theorem interleave_data_spec (n : ℕ) (own : Physics → List ℕ)
    (key : String) (sources : List Physics)
    (hall : ∀ phys ∈ sources, (phys.store.lookup key).isSome = true) :
    ∃ arr, interleave_data n own key sources = some arr ∧
      arr.length = n ∧
      ∀ i, i < n →
        arr[i]? = some (resolveAt (sources.map (pairOf own key)) i) := by
  obtain ⟨arr, harr, hlen, hget⟩ :=
    interleaveGo_spec own key sources (List.replicate n 0) hall
  refine ⟨arr, harr, by simpa using hlen, fun i hi => ?_⟩
  have := hget i (by simpa using hi)
  rwa [List.getD_eq_getElem?_getD, List.getElem?_replicate, if_pos hi] at this

theorem lastOcc_zip_none (ids : List ℕ) (vals : Arr) (i : ℕ)
    (h : i ∉ ids) :
    lastOcc (ids.zip vals) i = none := by
  induction ids generalizing vals with
  | nil => rfl
  | cons a rest ih =>
    cases vals with
    | nil => rfl
    | cons v vrest =>
      have ha : a ≠ i := fun he => h (he ▸ List.mem_cons_self _ _)
      have hr : i ∉ rest := fun hm => h (List.mem_cons_of_mem _ hm)
      show lastOcc ((a, v) :: rest.zip vrest) i = none
      unfold lastOcc
      rw [ih vrest hr, if_neg ha]

theorem resolve_foldl_neutral (post : List (List ℕ × Arr)) (i : ℕ)
    (b : ℚ) (h : ∀ s ∈ post, lastOcc (s.1.zip s.2) i = none) :
    post.foldl (fun cur s => (lastOcc (s.1.zip s.2) i).getD cur) b = b := by
  induction post generalizing b with
  | nil => rfl
  | cons s rest ih =>
    rw [List.foldl_cons, h s (List.mem_cons_self _ _)]
    exact ih b (fun s' hm => h s' (List.mem_cons_of_mem _ hm))

theorem pairOf_fst (own : Physics → List ℕ) (key : String)
    (ph : Physics) : (pairOf own key ph).1 = own ph := rfl

theorem pairOf_snd (own : Physics → List ℕ) (key : String)
    (ph : Physics) : (pairOf own key ph).2 = (ph.store.lookup key).getD [] :=
  rfl

theorem resolveAt_append (pre : List (List ℕ × Arr)) (ids : List ℕ)
    (vals : Arr) (post : List (List ℕ × Arr)) (i : ℕ) (b : ℚ)
    (hs : lastOcc (ids.zip vals) i = some b)
    (hpost : ∀ t ∈ post, lastOcc (t.1.zip t.2) i = none) :
    resolveAt (pre ++ (ids, vals) :: post) i = b := by
  unfold resolveAt
  simp only [List.foldl_append, List.foldl_cons, hs, Option.getD_some]
  exact resolve_foldl_neutral post i b hpost

/-- C1: for a property key not present in the Phase's own store,
`__getitem__` returns a full-length array assembled by iterating the
associated Physics providers in registration order and scattering each
provider's values into the positions of its owned index subset (a
later-registered provider winning where subsets overlap, uncovered
positions keeping the zero fill); for a locally present key the locally
stored array is returned unchanged. -/
theorem claim_c1 (p : PhaseCore) (key : String) :
    (p.store.hasKey key = true → p.getItem key = p.store.lookup key) ∧
    (p.store.hasKey key = false →
      (∀ phys ∈ p.physics, (phys.store.lookup key).isSome = true) →
      ∃ arr, p.getItem key = some arr ∧ arr.length = countOf key p ∧
        ∀ i, i < countOf key p →
          arr[i]? =
            some (resolveAt (p.physics.map (pairOf (ownOf key) key)) i)) := by
  constructor
  · intro h
    simp [PhaseCore.getItem, h]
  · intro h hall
    have hs := interleave_data_spec (countOf key p) (ownOf key) key
      p.physics hall
    simpa [PhaseCore.getItem, h] using hs

/-- Witness for C1: on the concrete two-provider phase, the local key
`pore.y` is returned from the store, and `pore.x` is interleaved with
the later provider winning on the shared pore 1 and pore 3 keeping the
zero fill. -/
theorem claim_c1_witness :
    (w1Phase.getItem "pore.y" = w1Phase.store.lookup "pore.y" ∧
      w1Phase.store.lookup "pore.y" = some [1, 2, 3, 4]) ∧
    (∃ arr, w1Phase.getItem "pore.x" = some arr ∧
      arr.length = countOf "pore.x" w1Phase ∧
      ∀ i, i < countOf "pore.x" w1Phase →
        arr[i]? =
          some (resolveAt
            (w1Phase.physics.map (pairOf (ownOf "pore.x") "pore.x")) i)) := by
  refine ⟨⟨(claim_c1 w1Phase "pore.y").1 (by decide), by decide⟩, ?_⟩
  exact (claim_c1 w1Phase "pore.x").2 (by decide) (by decide)

/-- C7: property resolution is a pure, uncached read.  First, the
state-passing embedding of `__getitem__` (whose body performs no store
write) leaves the phase — its own store, its providers and their
stores, and the attached network counts — unchanged.  Second, no result
is memoized: after a provider's store is regenerated, a subsequent
resolution of the same key returns the regenerated values at the
positions that provider owns (here: any position `i` whose last writer
within provider `k` has the new value `b` and that no later provider
covers). -/
theorem claim_c7 (p : PhaseCore) (key : String) (k : ℕ) (ph : Physics)
    (st : Store) (vals' : Arr) (i : ℕ) (b : ℚ) :
    (p.getItemS key).2 = p ∧
    (p.store.hasKey key = false →
      p.physics[k]? = some ph →
      st.lookup key = some vals' →
      (∀ ph₂ ∈ (regeneratePhysics p k st).physics,
        (ph₂.store.lookup key).isSome = true) →
      lastOcc ((ownOf key ph).zip vals') i = some b →
      (∀ ph₂ ∈ p.physics.drop (k + 1), i ∉ ownOf key ph₂) →
      i < countOf key p →
      ∃ arr, (regeneratePhysics p k st).getItem key = some arr ∧
        arr[i]? = some b) := by
  refine ⟨rfl, ?_⟩
  intro hkey hk hst hall hlast hpost hi
  have hklt : k < p.physics.length :=
    (List.getElem?_eq_some.mp hk).1
  have hphys : (regeneratePhysics p k st).physics =
      p.physics.take k ++ { ph with store := st } :: p.physics.drop (k + 1) := by
    simp only [regeneratePhysics, hk]
    exact List.set_eq_take_cons_drop _ hklt
  have hstore : (regeneratePhysics p k st).store = p.store := by
    simp only [regeneratePhysics, hk]
  have hcount : countOf key (regeneratePhysics p k st) = countOf key p := by
    simp only [regeneratePhysics, hk, countOf]
  obtain ⟨arr, harr, hlen, hget⟩ := interleave_data_spec
    (countOf key (regeneratePhysics p k st)) (ownOf key) key
    (regeneratePhysics p k st).physics hall
  refine ⟨arr, ?_, ?_⟩
  · unfold PhaseCore.getItem
    rw [hstore, hkey]
    simpa using harr
  · rw [hget i (by rwa [hcount]), Option.some_inj]
    rw [hphys, List.map_append, List.map_cons]
    have hpair : pairOf (ownOf key) key { ph with store := st } =
        (ownOf key ph, vals') := by
      simp [pairOf, ownOf, hst]
    rw [hpair]
    refine resolveAt_append ((p.physics.take k).map (pairOf (ownOf key) key))
      (ownOf key ph) vals'
      ((p.physics.drop (k + 1)).map (pairOf (ownOf key) key)) i b hlast ?_
    intro t ht
    obtain ⟨ph₂, hm, hpe⟩ := List.mem_map.mp ht
    subst hpe
    rw [pairOf_fst, pairOf_snd]
    exact lastOcc_zip_none _ _ i (hpost ph₂ hm)

/-- Witness for C7: regenerating the first provider of the concrete
phase with new data and re-reading `pore.x` yields the regenerated
value at pore 0. -/
theorem claim_c7_witness :
    (w1Phase.getItemS "pore.x").2 = w1Phase ∧
    ∃ arr, (regeneratePhysics w1Phase 0 w7Store).getItem "pore.x" =
        some arr ∧ arr[0]? = some 11 := by
  refine ⟨(claim_c7 w1Phase "pore.x" 0 w1Phys1 w7Store [11, 21] 0 11).1, ?_⟩
  exact (claim_c7 w1Phase "pore.x" 0 w1Phys1 w7Store [11, 21] 0 11).2
    (by decide) (by decide) (by decide) (by decide) (by decide) (by decide)
    (by decide)

/-- C8: assigning a property that is already present in the store of at
least one associated Physics provider leaves the Phase — in particular
its own store — completely unchanged (the write is silently dropped,
nothing is raised); a property present in no Physics store is stored
normally. -/
theorem claim_c8 (p : PhaseCore) (prop : String) (value : Arr) :
    ((∃ phys ∈ p.physics, phys.store.hasKey prop = true) →
      p.setItem prop value = p) ∧
    ((∀ phys ∈ p.physics, phys.store.hasKey prop = false) →
      (p.setItem prop value).store = p.store.insert prop value ∧
      (p.setItem prop value).store.lookup prop = some value) := by
  constructor
  · intro h
    obtain ⟨phys, hm, hkey⟩ := h
    have hany : p.physics.any (fun phys => phys.store.hasKey prop) = true :=
      List.any_eq_true.mpr ⟨phys, hm, hkey⟩
    simp [PhaseCore.setItem, hany]
  · intro h
    have hany : p.physics.any (fun phys => phys.store.hasKey prop) = false := by
      rw [List.any_eq_false]
      intro phys hm
      simp [h phys hm]
    refine ⟨by simp [PhaseCore.setItem, hany], ?_⟩
    simp [PhaseCore.setItem, hany, Store.insert, Store.lookup]

/-- Witness for C8: on the concrete phase whose provider defines
`pore.vol`, a write to `pore.vol` is dropped, while a write to the
fresh key `pore.new` is stored. -/
theorem claim_c8_witness :
    w8Phase.setItem "pore.vol" [9, 9] = w8Phase ∧
    (w8Phase.setItem "pore.new" [7, 7]).store.lookup "pore.new" =
      some [7, 7] := by
  refine ⟨(claim_c8 w8Phase "pore.vol" [9, 9]).1 (by decide), ?_⟩
  exact ((claim_c8 w8Phase "pore.new" [7, 7]).2 (by decide)).2

/-- C9: `set_component` preserves uniqueness-by-name of the component
list: mode `add` appends the phase only when no component of that name
is registered (keeping the name list duplicate-free), mode `remove`
with an absent name leaves the list unchanged, both rejected cases
return normally (no exception), and a removal that changes the list can
only happen when a component with that name is present. -/
theorem claim_c9 (comps : List PhaseCore) (phase : PhaseCore) :
    (phase.name ∈ phaseNames comps →
      set_component comps phase "add" = .ok comps) ∧
    (phase.name ∉ phaseNames comps →
      set_component comps phase "add" = .ok (comps ++ [phase]) ∧
      ((phaseNames comps).Nodup → (phaseNames (comps ++ [phase])).Nodup)) ∧
    (phase.name ∉ phaseNames comps →
      set_component comps phase "remove" = .ok comps) ∧
    (∀ comps', set_component comps phase "remove" = .ok comps' →
      comps' ≠ comps → phase.name ∈ phaseNames comps) := by
  refine ⟨?_, ?_, ?_, ?_⟩
  · intro h
    simp [set_component, h]
  · intro h
    refine ⟨by simp [set_component, h], fun hnd => ?_⟩
    rw [phaseNames, List.map_append]
    rw [List.nodup_append]
    refine ⟨hnd, List.nodup_singleton _, ?_⟩
    intro a ha hb
    simp only [List.map_cons, List.map_nil, List.mem_singleton] at hb
    subst hb
    exact h ha
  · intro h
    simp [set_component, h]
  · intro comps' hok hne
    by_cases h : phase.name ∈ phaseNames comps
    · exact h
    · exfalso
      apply hne
      simp only [set_component, h] at hok
      simp at hok
      exact hok.symm

/-- Witness for C9: adding a component whose name is taken is rejected,
adding a fresh one appends it, removing an absent name is rejected. -/
theorem claim_c9_witness :
    set_component [w9CompX] w9CompX "add" = .ok [w9CompX] ∧
    set_component [w9CompX] w9CompY "add" = .ok ([w9CompX] ++ [w9CompY]) ∧
    set_component [w9CompX] w9CompY "remove" = .ok [w9CompX] := by
  refine ⟨(claim_c9 [w9CompX] w9CompX).1 (by decide), ?_,
    (claim_c9 [w9CompX] w9CompY).2.2.1 (by decide)⟩
  exact ((claim_c9 [w9CompX] w9CompY).2.1 (by decide)).1

theorem cmh_go_length_of (comps : List PhaseCore) (acc : Arr)
    (h : ∀ comp ∈ comps, ∀ arr,
      comp.getItem "pore.mole_fraction" = some arr →
        arr.length = acc.length) :
    (comps.foldl mixStep acc).length = acc.length := by
  induction comps generalizing acc with
  | nil => rfl
  | cons comp rest ih =>
    rw [List.foldl_cons]
    cases hx : comp.getItem "pore.mole_fraction" with
    | none =>
      have hstep : mixStep acc comp = acc := by
        unfold mixStep
        simp only [hx]
      rw [hstep]
      exact ih acc (fun c hm => h c (List.mem_cons_of_mem _ hm))
    | some arr =>
      have hlen : arr.length = acc.length :=
        h comp (List.mem_cons_self _ _) arr hx
      have hstep : mixStep acc comp =
          (acc.zip arr).map (fun q => q.1 + q.2) := by
        unfold mixStep
        simp only [hx]
        unfold addBroadcast
        rw [if_pos hlen]
      have hlen2 : ((acc.zip arr).map (fun q => q.1 + q.2)).length =
          acc.length := by
        simp [hlen]
      rw [hstep, ih _ (fun c hm => by
        rw [hlen2]
        exact h c (List.mem_cons_of_mem _ hm)), hlen2]

theorem zipAdd_getD (a b : Arr) (i : ℕ) (hia : i < a.length)
    (hib : i < b.length) :
    ((a.zip b).map (fun q => q.1 + q.2)).getD i 0 =
      a.getD i 0 + b.getD i 0 := by
  induction a generalizing b i with
  | nil => simp at hia
  | cons x xs ih =>
    cases b with
    | nil => simp at hib
    | cons y ys =>
      cases i with
      | zero => simp [List.getD]
      | succ n =>
        simpa [List.getD] using
          ih ys n (by simpa using hia) (by simpa using hib)

theorem cmh_go_get (comps : List PhaseCore) (acc : Arr)
    (h : ∀ comp ∈ comps, ∀ arr,
      comp.getItem "pore.mole_fraction" = some arr →
        arr.length = acc.length)
    (i : ℕ) (hi : i < acc.length) :
    (comps.foldl mixStep acc)[i]? =
      some (acc.getD i 0 +
        (comps.filterMap (fun comp =>
          (comp.getItem "pore.mole_fraction").map
            (fun arr => arr.getD i 0))).sum) := by
  induction comps generalizing acc with
  | nil =>
    simp [List.getD_eq_getElem?_getD, List.getElem?_eq_getElem hi]
  | cons comp rest ih =>
    rw [List.foldl_cons]
    cases hx : comp.getItem "pore.mole_fraction" with
    | none =>
      have hstep : mixStep acc comp = acc := by
        unfold mixStep
        simp only [hx]
      rw [hstep]
      have hrec := ih acc (fun c hm => h c (List.mem_cons_of_mem _ hm)) hi
      rw [hrec]
      simp [List.filterMap_cons, hx]
    | some arr =>
      have hlen : arr.length = acc.length :=
        h comp (List.mem_cons_self _ _) arr hx
      have hstep : mixStep acc comp =
          (acc.zip arr).map (fun q => q.1 + q.2) := by
        unfold mixStep
        simp only [hx]
        unfold addBroadcast
        rw [if_pos hlen]
      rw [hstep]
      have hlen2 : ((acc.zip arr).map (fun q => q.1 + q.2)).length =
          acc.length := by
        simp [hlen]
      have hrec := ih ((acc.zip arr).map (fun q => q.1 + q.2))
        (fun c hm => by
          rw [hlen2]
          exact h c (List.mem_cons_of_mem _ hm))
        (by rwa [hlen2])
      rw [hrec, zipAdd_getD acc arr i hi (by rwa [hlen])]
      simp [List.filterMap_cons, hx, add_assoc]

/-- Counterexample to C10 as stated: `check_mixture_health` does not
always return an array of length `Np`.  On a single-pore mixture
(`Np = 1`) holding a component whose `pore.mole_fraction` array has
length 2, numpy broadcasts the length-one zero accumulator against the
longer array (`np.zeros((1,)) + arr` has `arr`'s shape), so the loop
returns a length-2 array. -/
theorem claim_c10_counterexample :
    check_mixture_health 1 [w10CompD] = [1/2, 1/3] ∧
    ¬ (check_mixture_health 1 [w10CompD]).length = 1 := by
  with_unfolding_all decide

/-- C10 (amended): provided every component's successful
`pore.mole_fraction` lookup yields a full-length array (length `Np`,
the mixture's own pore count — components attached to the mixture's
network), `check_mixture_health` returns an array of length `Np` equal
to the elementwise sum of `pore.mole_fraction` over exactly those
registered components whose lookup succeeds, a component on which the
lookup fails contributing nothing and raising nothing; with no
components the result is the all-zeros array.  Without the proviso the
length guarantee fails by numpy broadcasting (see the
counterexample). -/
theorem claim_c10 (np : ℕ) (comps : List PhaseCore)
    (h : ∀ comp ∈ comps, ∀ arr,
      comp.getItem "pore.mole_fraction" = some arr → arr.length = np) :
    (check_mixture_health np comps).length = np ∧
    (∀ i, i < np → (check_mixture_health np comps)[i]? =
      some ((comps.filterMap (fun comp =>
        (comp.getItem "pore.mole_fraction").map
          (fun arr => arr.getD i 0))).sum)) ∧
    check_mixture_health np [] = List.replicate np 0 := by
  refine ⟨?_, ?_, rfl⟩
  · rw [check_mixture_health, cmh_go_length_of comps (List.replicate np 0)
      (fun c hm arr ha => by
        rw [List.length_replicate]
        exact h c hm arr ha)]
    simp
  · intro i hi
    have := cmh_go_get comps (List.replicate np 0)
      (fun c hm arr ha => by
        rw [List.length_replicate]
        exact h c hm arr ha)
      i (by simpa using hi)
    rw [check_mixture_health, this]
    simp [List.getD_eq_getElem?_getD, List.getElem?_replicate, hi]

/-- Witness for C10: with one contributing component, one failing
component (its provider lacks the key) and a second contributing one,
all full-length, the health check sums exactly the two successful
lookups. -/
theorem claim_c10_witness :
    (check_mixture_health 3 [w10CompA, w10CompB, w10CompC]).length = 3 ∧
    (check_mixture_health 3 [w10CompA, w10CompB, w10CompC])[0]? =
      some (([w10CompA, w10CompB, w10CompC].filterMap (fun comp =>
        (comp.getItem "pore.mole_fraction").map
          (fun arr => arr.getD 0 0))).sum) := by
  refine ⟨(claim_c10 3 [w10CompA, w10CompB, w10CompC] (by decide)).1, ?_⟩
  exact (claim_c10 3 [w10CompA, w10CompB, w10CompC] (by decide)).2.1
    0 (by decide)

set_option maxRecDepth 100000 in
/-- C2: on the spec's 4×3×1 pass-through fixture — a single upstream
Dirichlet node set at value 2 on the back face, the front face
registered as outflow, no rate conditions, no internal sources — the
Dispersion solve produces the constant-2 field, and in particular the
mean of the solved field over the outflow-only boundary nodes equals
the upstream Dirichlet value 2 exactly. -/
theorem claim_c2 :
    dispersionRun outflowFixture = some (List.replicate 12 2) ∧
    (dispersionRun outflowFixture).map
      (fun x => meanQ (selectAt x [0, 1, 2])) = some 2 := by
  constructor
  · with_unfolding_all decide
  · with_unfolding_all decide

/-- C4: `calc_eff_diffusivity` divides the raw effective property
`_calc_eff_prop()` — the conductance-weighted inlet flux over the
driving boundary-value difference — by the phase's `pore.molar_density`
scaling property: with the per-phase uniform molar density `ρ`, every
entry of the returned value is that single scalar
`_calc_eff_prop() / ρ`. -/
theorem claim_c4 (edges : List (ℕ × ℕ)) (g : Vec) (inlet : List ℕ)
    (x : Vec) (vIn vOut : ℚ) (fluid : PhaseCore) (n : ℕ) (d : ℚ)
    (h : fluid.getItem "pore.molar_density" = some (List.replicate n d)) :
    calc_eff_diffusivity edges g inlet x vIn vOut fluid =
      some (List.replicate n
        (inletFlux edges g inlet x / (vIn - vOut) / d)) := by
  simp [calc_eff_diffusivity, h, calcEffProp, List.map_replicate]

/-- Witness for C4: the chain fixture with uniform molar density 2. -/
theorem claim_c4_witness :
    calc_eff_diffusivity [(0, 1), (1, 2)] [1, 1] [2] [0, 1/2, 1] 1 0
        w4Fluid =
      some (List.replicate 3
        (inletFlux [(0, 1), (1, 2)] [1, 1] [2] [0, 1/2, 1] / (1 - 0) / 2)) :=
  claim_c4 [(0, 1), (1, 2)] [1, 1] [2] [0, 1/2, 1] 1 0 w4Fluid 3 2
    (by decide)

theorem filter_ne_same (l : Store) (k : String) :
    (l.filter (fun kv => kv.1 ≠ k)).filter (fun kv => kv.1 ≠ k) =
      l.filter (fun kv => kv.1 ≠ k) := by
  induction l with
  | nil => rfl
  | cons kv rest ih =>
    by_cases h : kv.1 = k <;> simp [List.filter_cons, h, ih]

theorem insert_insert (st : Store) (k : String) (v : Arr) :
    (st.insert k v).insert k v = st.insert k v := by
  unfold Store.insert
  simp [List.filter_cons, filter_ne_same]

/-- C6: `run()` is deterministic and free of hidden state drift: from
any configured state, a successful run only replaces the stored
quantity array, and running again from the resulting state succeeds
and returns that state unchanged — the same solved field is stored
both times. -/
theorem claim_c6 (s s' : AlgState) (h : runAlg s = some s') :
    runAlg s' = some s' := by
  unfold runAlg at h
  cases hg : s.phase.getItem s.conductance with
  | none =>
    rw [hg] at h
    exact absurd h (by simp)
  | some g =>
    rw [hg] at h
    simp only at h
    cases hx : gaussSolve
        (applyDirichletList (laplacian s.net.Np s.net.conns g,
          List.replicate s.net.Np 0) s.bcValue).1
        (applyRates (applyDirichletList (laplacian s.net.Np s.net.conns g,
          List.replicate s.net.Np 0) s.bcValue).2 s.bcRate) with
    | none =>
      rw [hx] at h
      exact absurd h (by simp)
    | some x =>
      rw [hx] at h
      have hs' : s' = { s with store := s.store.insert s.quantity x } :=
        (Option.some.inj h).symm
      subst hs'
      unfold runAlg
      simp only [hg, hx, insert_insert]

/-- Witness for C6: on the concrete two-pore state, the first run
solves and the second run reproduces the same state. -/
theorem claim_c6_witness :
    ∃ s', runAlg c6State = some s' ∧ runAlg s' = some s' := by
  have h : runAlg c6State =
      some { c6State with store := [("pore.mole_fraction", [0, 1])] } := by
    with_unfolding_all decide
  exact ⟨_, h, claim_c6 c6State _ h⟩

theorem scaleVec_length (c : ℚ) (v : Vec) :
    (scaleVec c v).length = v.length := by
  simp [scaleVec]

theorem scaleVec_getElem? (c : ℚ) (v : Vec) (i : ℕ) :
    (scaleVec c v)[i]? = (v[i]?).map (fun q => c * q) := by
  simp [scaleVec]

theorem scaleVec_getD (c : ℚ) (v : Vec) (i : ℕ) :
    (scaleVec c v).getD i 0 = c * v.getD i 0 := by
  rw [List.getD_eq_getElem?_getD, List.getD_eq_getElem?_getD,
    scaleVec_getElem?]
  cases v[i]? <;> simp

theorem scaleVec_set (c : ℚ) (v : Vec) (i : ℕ) (x : ℚ) :
    scaleVec c (v.set i x) = (scaleVec c v).set i (c * x) := by
  simp [scaleVec, List.map_set]

theorem scaleMat_getElem? (c : ℚ) (A : Mat) (i : ℕ) :
    (scaleMat c A)[i]? = (A[i]?).map (scaleVec c) := by
  simp [scaleMat]

theorem addAt_length (A : Mat) (i j : ℕ) (x : ℚ) :
    (addAt A i j x).length = A.length := by
  unfold addAt
  cases A[i]? <;> simp

theorem addAt_scale (c : ℚ) (A : Mat) (i j : ℕ) (x : ℚ) :
    addAt (scaleMat c A) i j (c * x) = scaleMat c (addAt A i j x) := by
  unfold addAt
  cases hr : A[i]? with
  | none => simp [scaleMat_getElem?, hr]
  | some r =>
    simp only [scaleMat_getElem?, hr, Option.map_some']
    rw [scaleVec_getD,
      show c * r.getD j 0 + c * x = c * (r.getD j 0 + x) by ring,
      ← scaleVec_set]
    simp [scaleMat, List.map_set]

theorem lapStep_length (A : Mat) (eg : (ℕ × ℕ) × ℚ) :
    (lapStep A eg).length = A.length := by
  unfold lapStep
  simp [addAt_length]

theorem lapStep_scale (c : ℚ) (A : Mat) (e : ℕ × ℕ) (g : ℚ) :
    lapStep (scaleMat c A) (e, c * g) = scaleMat c (lapStep A (e, g)) := by
  show addAt (addAt (addAt (addAt (scaleMat c A) e.1 e.2 (-(c * g)))
      e.2 e.1 (-(c * g))) e.1 e.1 (c * g)) e.2 e.2 (c * g) =
    scaleMat c (addAt (addAt (addAt (addAt A e.1 e.2 (-g)) e.2 e.1 (-g))
      e.1 e.1 g) e.2 e.2 g)
  rw [show -(c * g) = c * (-g) by ring]
  rw [addAt_scale, addAt_scale, addAt_scale, addAt_scale]

theorem zip_scale (edges : List (ℕ × ℕ)) (g : Vec) (c : ℚ) :
    edges.zip (scaleVec c g) =
      (edges.zip g).map (fun p => (p.1, c * p.2)) := by
  induction edges generalizing g with
  | nil => rfl
  | cons e rest ih =>
    cases g with
    | nil => rfl
    | cons x xs =>
      show (e, c * x) :: rest.zip (scaleVec c xs) =
        (e, c * x) :: (rest.zip xs).map (fun p => (p.1, c * p.2))
      rw [ih xs]

theorem lap_foldl_length (l : List ((ℕ × ℕ) × ℚ)) (A : Mat) :
    (l.foldl lapStep A).length = A.length := by
  induction l generalizing A with
  | nil => rfl
  | cons p rest ih => rw [List.foldl_cons, ih, lapStep_length]

theorem laplacian_length (np : ℕ) (edges : List (ℕ × ℕ)) (g : Vec) :
    (laplacian np edges g).length = np := by
  unfold laplacian
  rw [lap_foldl_length]
  simp [zeroMat]

theorem lap_foldl_scale (c : ℚ) (l : List ((ℕ × ℕ) × ℚ)) (A : Mat) :
    (l.map (fun p => (p.1, c * p.2))).foldl lapStep (scaleMat c A) =
      scaleMat c (l.foldl lapStep A) := by
  induction l generalizing A with
  | nil => rfl
  | cons p rest ih =>
    obtain ⟨e, g⟩ := p
    show (rest.map (fun p => (p.1, c * p.2))).foldl lapStep
        (lapStep (scaleMat c A) (e, c * g)) =
      scaleMat c (rest.foldl lapStep (lapStep A (e, g)))
    rw [lapStep_scale]
    exact ih (lapStep A (e, g))

theorem scaleMat_zero (c : ℚ) (np : ℕ) :
    scaleMat c (zeroMat np) = zeroMat np := by
  simp [scaleMat, zeroMat, scaleVec, List.map_replicate]

theorem laplacian_scale (c : ℚ) (np : ℕ) (edges : List (ℕ × ℕ))
    (g : Vec) :
    laplacian np edges (scaleVec c g) =
      scaleMat c (laplacian np edges g) := by
  unfold laplacian
  rw [zip_scale]
  conv_lhs => rw [← scaleMat_zero c np]
  exact lap_foldl_scale c (edges.zip g) (zeroMat np)

theorem dirichletRows_length (i : ℕ) (v : ℚ) (j0 : ℕ)
    (l : List (Vec × ℚ)) :
    (dirichletRows i v j0 l).length = l.length := by
  induction l generalizing j0 with
  | nil => rfl
  | cons rb rest ih =>
    show (dirichletRows i v (j0 + 1) rest).length + 1 = rest.length + 1
    rw [ih]

theorem dirichletRows_getElem? (i : ℕ) (v : ℚ) (j0 : ℕ)
    (l : List (Vec × ℚ)) (k : ℕ) :
    (dirichletRows i v j0 l)[k]? = (l[k]?).map (fun rb =>
      if j0 + k = i then (stdRow rb.1.length i, v)
      else (rb.1.set i 0, rb.2 - rb.1.getD i 0 * v)) := by
  induction l generalizing j0 k with
  | nil => simp [dirichletRows]
  | cons rb rest ih =>
    have hunf : dirichletRows i v j0 (rb :: rest) =
        (if j0 = i then (stdRow rb.1.length i, v)
         else (rb.1.set i 0, rb.2 - rb.1.getD i 0 * v)) ::
          dirichletRows i v (j0 + 1) rest := rfl
    cases k with
    | zero =>
      rw [hunf]
      simp
    | succ n =>
      have hidx : j0 + 1 + n = j0 + (n + 1) := by omega
      rw [hunf, List.getElem?_cons_succ, List.getElem?_cons_succ,
        ih (j0 + 1) n, hidx]

theorem zip_getElem? {α β : Type _} (l₁ : List α) (l₂ : List β) (j : ℕ) :
    (l₁.zip l₂)[j]? =
      (l₁[j]?).bind (fun a => (l₂[j]?).map (fun b => (a, b))) := by
  induction l₁ generalizing l₂ j with
  | nil => simp
  | cons a as ih =>
    cases l₂ with
    | nil => simp
    | cons b bs =>
      cases j with
      | zero => simp
      | succ n => simpa using ih bs n

theorem applyD_fst_length (P : Mat × Vec) (iv : ℕ × ℚ) :
    (applyD P iv).1.length = min P.1.length P.2.length := by
  simp [applyD, dirichletRows_length]

theorem applyD_snd_length (P : Mat × Vec) (iv : ℕ × ℚ) :
    (applyD P iv).2.length = min P.1.length P.2.length := by
  simp [applyD, dirichletRows_length]

theorem applyD_fst_getElem? (P : Mat × Vec) (i : ℕ) (v : ℚ) (j : ℕ) :
    (applyD P (i, v)).1[j]? = ((P.1.zip P.2)[j]?).map
      (fun rb => if j = i then stdRow rb.1.length i else rb.1.set i 0) := by
  show ((dirichletRows i v 0 (P.1.zip P.2)).map (fun q => q.1))[j]? = _
  rw [List.getElem?_map, dirichletRows_getElem?, Option.map_map]
  apply congrArg (fun f => Option.map f ((P.1.zip P.2)[j]?))
  funext rb
  by_cases hij : j = i <;> simp [hij]

theorem applyD_snd_getElem? (P : Mat × Vec) (i : ℕ) (v : ℚ) (j : ℕ) :
    (applyD P (i, v)).2[j]? = ((P.1.zip P.2)[j]?).map
      (fun rb => if j = i then v else rb.2 - rb.1.getD i 0 * v) := by
  show ((dirichletRows i v 0 (P.1.zip P.2)).map (fun q => q.2))[j]? = _
  rw [List.getElem?_map, dirichletRows_getElem?, Option.map_map]
  apply congrArg (fun f => Option.map f ((P.1.zip P.2)[j]?))
  funext rb
  by_cases hij : j = i <;> simp [hij]

theorem RowRel_applyD (c : ℚ) (done : ℕ → Prop) (P Q : Mat × Vec)
    (h : RowRel c done P Q) (i : ℕ) (v : ℚ) :
    RowRel c (fun j => j = i ∨ done j)
      (applyD P (i, v)) (applyD Q (i, v)) := by
  obtain ⟨hA, hb, hPb, hrow⟩ := h
  have hQb : Q.2.length = Q.1.length := by rw [hb, hPb, hA]
  refine ⟨?_, ?_, ?_, fun j => ⟨?_, ?_⟩⟩
  · rw [applyD_fst_length, applyD_fst_length, hA, hb]
  · rw [applyD_snd_length, applyD_snd_length, hA, hb]
  · rw [applyD_snd_length, applyD_fst_length]
  all_goals intro hj
  all_goals rw [applyD_fst_getElem?, applyD_fst_getElem?,
    applyD_snd_getElem?, applyD_snd_getElem?,
    zip_getElem?, zip_getElem?]
  · -- j = i or done j: the transformed rows agree
    rcases hj with hji | hjd
    · subst hji
      cases hP1 : P.1[j]? with
      | none =>
        have hlen : P.1.length ≤ j := List.getElem?_eq_none_iff.mp hP1
        have hQ1 : Q.1[j]? = none :=
          List.getElem?_eq_none_iff.mpr (hA ▸ hlen)
        have hP2 : P.2[j]? = none :=
          List.getElem?_eq_none_iff.mpr (hPb ▸ hlen)
        have hQ2 : Q.2[j]? = none :=
          List.getElem?_eq_none_iff.mpr (by rw [hQb, hA]; exact hlen)
        simp [hP1, hQ1, hP2, hQ2]
      | some r =>
        obtain ⟨hjlt, hre⟩ := List.getElem?_eq_some.mp hP1
        have hP2 := List.getElem?_eq_getElem
          (show j < P.2.length by rw [hPb]; exact hjlt)
        by_cases hd : done j
        · obtain ⟨hQ1, hQ2⟩ := (hrow j).1 hd
          rw [hQ1, hQ2, hP1, hP2]
          simp
        · obtain ⟨hQ1, hQ2⟩ := (hrow j).2 hd
          rw [hQ1, hQ2, hP1, hP2]
          simp [scaleVec_length]
    · obtain ⟨hQ1, hQ2⟩ := (hrow j).1 hjd
      rw [hQ1, hQ2]
      exact ⟨rfl, rfl⟩
  · -- fresh row: the transform commutes with scaling
    have hji : j ≠ i := fun he => hj (Or.inl he)
    have hjd : ¬ done j := fun hd => hj (Or.inr hd)
    obtain ⟨hQ1, hQ2⟩ := (hrow j).2 hjd
    rw [hQ1, hQ2]
    cases hP1 : P.1[j]? with
    | none =>
      have hlen : P.1.length ≤ j := List.getElem?_eq_none_iff.mp hP1
      have hP2 : P.2[j]? = none :=
        List.getElem?_eq_none_iff.mpr (hPb ▸ hlen)
      simp [hP2]
    | some r =>
      obtain ⟨hjlt, hre⟩ := List.getElem?_eq_some.mp hP1
      have hP2 := List.getElem?_eq_getElem
        (show j < P.2.length by rw [hPb]; exact hjlt)
      rw [hP2]
      simp only [Option.map_some', Option.some_bind, if_neg hji]
      constructor
      · rw [scaleVec_set]
        simp
      · rw [scaleVec_getD]
        congr 1
        ring

theorem RowRel_congr (c : ℚ) (D D' : ℕ → Prop) (P Q : Mat × Vec)
    (hiff : ∀ j, D j ↔ D' j) (h : RowRel c D P Q) : RowRel c D' P Q := by
  obtain ⟨h1, h2, h3, h4⟩ := h
  exact ⟨h1, h2, h3, fun j => ⟨fun hd => (h4 j).1 ((hiff j).2 hd),
    fun hd => (h4 j).2 (fun hdj => hd ((hiff j).1 hdj))⟩⟩

theorem RowRel_applyDirichletList (c : ℚ) (done : ℕ → Prop)
    (ds : List (ℕ × ℚ)) (P Q : Mat × Vec) (h : RowRel c done P Q) :
    RowRel c (fun j => j ∈ ds.map Prod.fst ∨ done j)
      (applyDirichletList P ds) (applyDirichletList Q ds) := by
  induction ds generalizing done P Q with
  | nil =>
    refine RowRel_congr c done _ _ _ (fun j => ?_) h
    simp
  | cons d rest ih =>
    obtain ⟨i, v⟩ := d
    have hstep := RowRel_applyD c done P Q h i v
    have hrec := ih (fun j => j = i ∨ done j) _ _ hstep
    refine RowRel_congr c _ _ _ _ (fun j => ?_) hrec
    simp only [List.map_cons, List.mem_cons]
    tauto

theorem dot_scale (c : ℚ) (r x : Vec) :
    dot (scaleVec c r) x = c * dot r x := by
  induction r generalizing x with
  | nil =>
    show dot [] x = c * dot [] x
    cases x <;> simp [dot]
  | cons a as ih =>
    cases x with
    | nil =>
      show (0 : ℚ) = c * 0
      simp
    | cons b bs =>
      show c * a * b + dot (scaleVec c as) bs = c * (a * b + dot as bs)
      rw [ih bs]
      ring

theorem matVec_getElem? (A : Mat) (x : Vec) (j : ℕ) :
    (matVec A x)[j]? = (A[j]?).map (fun r => dot r x) := by
  simp [matVec]

theorem RowRel_solves (c : ℚ) (D : ℕ → Prop) (P Q : Mat × Vec)
    (h : RowRel c D P Q) (x : Vec)
    (hx : matVec P.1 x = P.2) : matVec Q.1 x = Q.2 := by
  obtain ⟨hA, hb, hPb, hrow⟩ := h
  apply List.ext_getElem?
  intro j
  have h1 : (matVec P.1 x)[j]? = P.2[j]? := by rw [hx]
  rw [matVec_getElem?] at h1 ⊢
  by_cases hd : D j
  · obtain ⟨hAj, hbj⟩ := (hrow j).1 hd
    rw [hAj, hbj]
    exact h1
  · obtain ⟨hAj, hbj⟩ := (hrow j).2 hd
    rw [hAj, hbj]
    cases hA1 : P.1[j]? with
    | none =>
      rw [hA1] at h1
      simp [← h1]
    | some r =>
      rw [hA1] at h1
      rw [← h1]
      simp [dot_scale]

theorem replicate_zero_map (c : ℚ) (np j : ℕ) :
    ((List.replicate np (0 : ℚ))[j]?).map (fun q => c * q) =
      (List.replicate np (0 : ℚ))[j]? := by
  rw [List.getElem?_replicate]
  split <;> simp

theorem sum_map_mul {α : Type _} (c : ℚ) (f : α → ℚ) (l : List α) :
    (l.map (fun a => c * f a)).sum = c * (l.map f).sum := by
  induction l with
  | nil => simp
  | cons a rest ih => simp [ih, mul_add]

theorem inletFlux_scale (edges : List (ℕ × ℕ)) (g : Vec)
    (inlet : List ℕ) (x : Vec) (c : ℚ) :
    inletFlux edges (scaleVec c g) inlet x =
      c * inletFlux edges g inlet x := by
  unfold inletFlux
  rw [zip_scale, List.map_map]
  rw [← sum_map_mul]
  apply congrArg List.sum
  apply List.map_congr_left
  intro p _
  obtain ⟨⟨a, b⟩, gv⟩ := p
  show (if a ∈ inlet ∧ b ∉ inlet then
      c * gv * (x.getD a 0 - x.getD b 0)
    else if b ∈ inlet ∧ a ∉ inlet then
      c * gv * (x.getD b 0 - x.getD a 0)
    else 0) = c * (if a ∈ inlet ∧ b ∉ inlet then
      gv * (x.getD a 0 - x.getD b 0)
    else if b ∈ inlet ∧ a ∉ inlet then
      gv * (x.getD b 0 - x.getD a 0)
    else 0)
  by_cases h1 : a ∈ inlet ∧ b ∉ inlet
  · rw [if_pos h1, if_pos h1]
    ring
  · rw [if_neg h1, if_neg h1]
    by_cases h2 : b ∈ inlet ∧ a ∉ inlet
    · rw [if_pos h2, if_pos h2]
      ring
    · rw [if_neg h2, if_neg h2]
      simp

/-- C5 (amended): with Dirichlet-only boundary conditions (no rate
conditions), scaling every edge conductance by a positive factor `c`
leaves the solved field unchanged — any field solving the assembled
system for `g` also solves it for `c·g` — and multiplies the computed
effective property (every entry of `calc_eff_diffusivity`) by `c`. -/
theorem claim_c5 (np : ℕ) (edges : List (ℕ × ℕ)) (g : Vec)
    (ds : List (ℕ × ℚ)) (c : ℚ) (hc : 0 < c) (x : Vec)
    (hx : matVec (applyDirichletList (laplacian np edges g,
        List.replicate np 0) ds).1 x =
      (applyDirichletList (laplacian np edges g,
        List.replicate np 0) ds).2)
    (inlet : List ℕ) (vIn vOut : ℚ) (fluid : PhaseCore) :
    matVec (applyDirichletList (laplacian np edges (scaleVec c g),
        List.replicate np 0) ds).1 x =
      (applyDirichletList (laplacian np edges (scaleVec c g),
        List.replicate np 0) ds).2 ∧
    calc_eff_diffusivity edges (scaleVec c g) inlet x vIn vOut fluid =
      (calc_eff_diffusivity edges g inlet x vIn vOut fluid).map
        (fun arr => arr.map (fun q => c * q)) := by
  constructor
  · have hbase : RowRel c (fun _ => False)
        (laplacian np edges g, List.replicate np 0)
        (laplacian np edges (scaleVec c g), List.replicate np 0) := by
      rw [laplacian_scale]
      refine ⟨by simp [scaleMat], rfl,
        by rw [laplacian_length, List.length_replicate], fun j => ?_⟩
      refine ⟨fun hf => hf.elim, fun _ => ⟨?_, ?_⟩⟩
      · exact scaleMat_getElem? c _ j
      · exact (replicate_zero_map c np j).symm
    have hfold := RowRel_applyDirichletList c (fun _ => False) ds _ _ hbase
    exact RowRel_solves c _ _ _ hfold x hx
  · unfold calc_eff_diffusivity
    cases hd : fluid.getItem "pore.molar_density" with
    | none => rfl
    | some rho =>
      simp only [Option.map_some']
      rw [Option.some_inj, List.map_map]
      apply List.map_congr_left
      intro r _
      show calcEffProp edges (scaleVec c g) inlet x vIn vOut / r =
        c * (calcEffProp edges g inlet x vIn vOut / r)
      unfold calcEffProp
      rw [inletFlux_scale]
      ring

/-- Witness for C5: the three-pore chain with Dirichlet 0 / 1 at its
ends, solved field (0, 1/2, 1), scaled by c = 2. -/
theorem claim_c5_witness :
    (matVec (applyDirichletList (laplacian 3 [(0, 1), (1, 2)]
        (scaleVec 2 [1, 1]), List.replicate 3 0) [(0, 0), (2, 1)]).1
        [0, 1/2, 1] =
      (applyDirichletList (laplacian 3 [(0, 1), (1, 2)]
        (scaleVec 2 [1, 1]), List.replicate 3 0) [(0, 0), (2, 1)]).2) ∧
    calc_eff_diffusivity [(0, 1), (1, 2)] (scaleVec 2 [1, 1]) [2]
        [0, 1/2, 1] 1 0 chainFluid =
      (calc_eff_diffusivity [(0, 1), (1, 2)] [1, 1] [2] [0, 1/2, 1] 1 0
        chainFluid).map (fun arr => arr.map (fun q => 2 * q)) :=
  claim_c5 3 [(0, 1), (1, 2)] [1, 1] [(0, 0), (2, 1)] 2 (by norm_num)
    [0, 1/2, 1] (by with_unfolding_all decide) [2] 1 0 chainFluid

/-- Counterexample to C5 as stated: with a rate (Neumann) condition
among the fixed boundary conditions — the chain with Dirichlet ends
0 / 1 and a unit rate source at the middle pore — doubling every edge
conductance does not double the computed effective property (it is 0
for `g = 1` and 1/2 for `g = 2`). -/
theorem claim_c5_counterexample :
    ¬ ratePipeline 2 = (ratePipeline 1).map
        (fun arr => arr.map (fun q => 2 * q)) := by
  with_unfolding_all decide

end OpenPNM
